import Mathlib

/-!
# Verification of the deterministic scheduler

A shallow embedding, in Lean 4, of `src/agent_controller/scheduler.py`
(`_to_minutes` and `create_schedule`), together with theorems settling the
specification's claims about it.

Modelling conventions:
* Python values that can reach the scheduler's duration / id / availability
  fields are modelled by `PyVal` (None, int, float, str).  Python strings
  are modelled by their code-point sequences (`List Char`), whose
  lexicographic order is exactly Python's string order.
* Python floats are modelled as exact fractions (`Flt`, an integer
  numerator over a positive integer denominator, kept unnormalized so that
  every operation is a plain integer computation); the IEEE-754 rounding of
  float arithmetic is not modelled.  All concrete values exercised by the
  spec's scenarios (0.25, 2.0, 4, ...) are exactly representable, where the
  two semantics agree.  Every `Flt` produced by the embedding's own
  constructors has a positive denominator, mirroring the fact that every
  Python float is such a fraction.
* Python's `int(...)` / `float(...)` conversions, which raise `ValueError` /
  `TypeError` on non-coercible values, are modelled as `Except Unit`-valued
  functions (`pyToInt`, `pyToFloat`).  String coercion accepts an optionally
  signed decimal literal surrounded by whitespace, as CPython does (CPython
  additionally accepts underscore digit separators and exponent notation for
  floats; no claim exercises those).
* Python's `round` (banker's rounding, ties to even) is `pyRound`.
* `str(...)` is `pyStr`; for floats it renders `num/den` of the exact
  fraction (CPython's shortest-round-trip float repr is not modelled; the
  spec's scenarios use only int and str ids, where `pyStr` agrees with
  CPython's `str`).
* Exceptions escaping `create_schedule` are tagged by `SchedErr` with the
  raising site: the non-positive-capacity `ValueError` (`configError`), a
  failed numeric coercion (`convError`), and a failed
  `datetime.fromisoformat` (`dateError`).  In CPython all three are
  `ValueError`/`TypeError`; the tags record which check fired.
-/

namespace Scheduler

/-- An exact fraction standing for a Python float: `num / den`.  Kept
unnormalized; every constructor below yields `den > 0`. -/
structure Flt where
  num : Int
  den : Nat
deriving DecidableEq

def Flt.ofInt (n : Int) : Flt := ⟨n, 1⟩

def Flt.mul (a b : Flt) : Flt := ⟨a.num * b.num, a.den * b.den⟩

def Flt.sub (a b : Flt) : Flt :=
  ⟨a.num * (b.den : Int) - b.num * (a.den : Int), a.den * b.den⟩

/-- `a < b` for fractions with positive denominators, by
cross-multiplication. -/
def Flt.lt (a b : Flt) : Prop := a.num * (b.den : Int) < b.num * (a.den : Int)

instance : DecidableRel Flt.lt := fun a b =>
  inferInstanceAs (Decidable (a.num * (b.den : Int) < b.num * (a.den : Int)))

/-- `⌊a⌋` for a fraction with positive denominator. -/
def Flt.floor (a : Flt) : Int := a.num.fdiv a.den

/-- Truncation toward zero, as Python's `int(float)` does. -/
def Flt.trunc (a : Flt) : Int := a.num.tdiv a.den

/-- Python's `round` on a float with no `ndigits`: round half to even.
With `f = ⌊a⌋` and remainder `r = a - f ∈ [0, 1)`, compare `r` with `1/2`
by cross-multiplication: `r2 = 2 * r * den`. -/
def pyRound (a : Flt) : Int :=
  let f := a.floor
  let r2 := 2 * (a.num - f * (a.den : Int))
  if r2 < (a.den : Int) then f
  else if (a.den : Int) < r2 then f + 1
  else if f % 2 = 0 then f else f + 1

/-- Value of a nonempty all-digit character list. -/
def digitsVal : List Char → Option Nat
  | [] => Option.none
  | [c] => if c.isDigit then Option.some (c.toNat - 48) else Option.none
  | c :: cs =>
    if c.isDigit then
      (digitsVal cs).map (fun v => (c.toNat - 48) * 10 ^ cs.length + v)
    else Option.none

/-- Parse an optionally signed decimal integer literal (Python `int(str)`,
after whitespace stripping). -/
def parseSignedInt (cs : List Char) : Option Int :=
  match cs with
  | '-' :: rest => (digitsVal rest).map (fun v => -(v : Int))
  | '+' :: rest => (digitsVal rest).map (fun v => (v : Int))
  | _ => (digitsVal cs).map (fun v => (v : Int))

/-- Parse an optionally signed decimal literal with optional fraction part
(Python `float(str)`, after whitespace stripping; exponents and the
`inf`/`nan` spellings are not modelled). -/
def parseSignedFlt (cs : List Char) : Option Flt :=
  let unsigned : List Char → Option Flt := fun ds =>
    match ds.splitOn '.' with
    | [whole] => (digitsVal whole).map (fun v => Flt.ofInt v)
    | [whole, frac] =>
      match digitsVal whole, digitsVal frac with
      | Option.some w, Option.some f =>
        Option.some ⟨(w : Int) * 10 ^ frac.length + (f : Int), 10 ^ frac.length⟩
      | _, _ => Option.none
    | _ => Option.none
  match cs with
  | '-' :: rest => (unsigned rest).map (fun a => ⟨-a.num, a.den⟩)
  | '+' :: rest => (unsigned rest).map (fun a => a)
  | _ => unsigned cs

/-- Python's whitespace stripping (`str.strip()` as `int`/`float` apply to
string arguments). -/
def stripChars (cs : List Char) : List Char :=
  ((cs.dropWhile Char.isWhitespace).reverse.dropWhile Char.isWhitespace).reverse

/-- A Python value as it can appear in the scheduler's input dicts. -/
inductive PyVal where
  | none
  | int (n : Int)
  | float (f : Flt)
  | str (s : List Char)
deriving DecidableEq

/-- Python `int(x)`: identity on ints, truncation on floats, literal parse
on strings; `None` (and any other non-coercible value) raises. -/
def pyToInt : PyVal → Except Unit Int
  | PyVal.int n => Except.ok n
  | PyVal.float a => Except.ok a.trunc
  | PyVal.str s =>
    match parseSignedInt (stripChars s) with
    | Option.some n => Except.ok n
    | Option.none => Except.error ()
  | PyVal.none => Except.error ()

/-- Python `float(x)`: widening on ints, identity on floats, literal parse
on strings; `None` raises. -/
def pyToFloat : PyVal → Except Unit Flt
  | PyVal.int n => Except.ok (Flt.ofInt n)
  | PyVal.float a => Except.ok a
  | PyVal.str s =>
    match parseSignedFlt (stripChars s) with
    | Option.some a => Except.ok a
    | Option.none => Except.error ()
  | PyVal.none => Except.error ()

/-- Decimal rendering of an integer, as Python's `str(int)`. -/
def intStr (n : Int) : List Char :=
  if n < 0 then '-' :: Nat.toDigits 10 (-n).toNat else Nat.toDigits 10 n.toNat

/-- Python `str(x)` for the values a task id can take (see the module
comment for the float caveat). -/
def pyStr : PyVal → List Char
  | PyVal.none => "None".data
  | PyVal.int n => intStr n
  | PyVal.float a => intStr a.num ++ '/' :: intStr a.den
  | PyVal.str s => s

/-- Python truthiness for the values `availability.get("start_date")` can
take. -/
def truthy : PyVal → Bool
  | PyVal.none => false
  | PyVal.int n => n ≠ 0
  | PyVal.float a => a.num ≠ 0
  | PyVal.str s => s ≠ []

/-- A task dict, as read by the scheduler.  Only the keys `id`,
`estimate_minutes` and `estimate_hours` are ever accessed.  `id` is read
solely via `t.get("id")`, which yields `None` when the key is absent, so a
missing id is folded into `PyVal.none`.  For the estimate fields the code
distinguishes a missing key from a key holding `None` (`"k" in task`), so
they are `Option PyVal` (`Option.none` = key absent). -/
structure Task where
  id : PyVal
  estimate_minutes : Option PyVal
  estimate_hours : Option PyVal
deriving DecidableEq

/-- The `estimate_hours` fall-through of `_to_minutes` (scheduler.py lines
30-33): `int(round(float(task["estimate_hours"]) * 60))` when the key is
present and not None, else the default 60. -/
def hoursMinutes (t : Task) : Except Unit Int :=
  match t.estimate_hours with
  | Option.some w =>
    if w ≠ PyVal.none then
      (pyToFloat w).map (fun a => pyRound (a.mul (Flt.ofInt 60)))
    else Except.ok 60
  | Option.none => Except.ok 60

/-- `_to_minutes` (scheduler.py lines 27-33): `int(estimate_minutes)` when
present and not None, else `int(round(float(estimate_hours) * 60))` when
present and not None, else 60.  A non-coercible field value raises, which
surfaces as `Except.error`. -/
def to_minutes (t : Task) : Except Unit Int :=
  match t.estimate_minutes with
  | Option.some v => if v ≠ PyVal.none then pyToInt v else hoursMinutes t
  | Option.none => hoursMinutes t

/-- The `availability` dict.  Only the keys `hours_per_day` and
`start_date` are ever read, both via `.get`, so each is an `Option PyVal`
(`Option.none` = key absent). -/
structure Availability where
  hours_per_day : Option PyVal
  start_date : Option PyVal
deriving DecidableEq

/-- `float(availability.get("hours_per_day", 4))` (scheduler.py line 60). -/
def hoursPerDay (a : Availability) : Except Unit Flt :=
  pyToFloat (a.hours_per_day.getD (PyVal.int 4))

/-- `int(round(hours_per_day * 60 * (1.0 - float(buffer_ratio))))`
(scheduler.py line 61). -/
def capacity_per_day (a : Availability) (buffer_ratio : Flt) : Except Unit Int :=
  (hoursPerDay a).map
    (fun h => pyRound ((h.mul (Flt.ofInt 60)).mul ((Flt.ofInt 1).sub buffer_ratio)))

/-- One element of the `converted` list (scheduler.py line 72):
`{"id": t.get("id"), "minutes": int(minutes), "orig": t}`. -/
structure Item where
  id : PyVal
  minutes : Int
  orig : Task
deriving DecidableEq

/-- The conversion loop (scheduler.py lines 66-72): normalize each task's
minutes via `_to_minutes`, clamp up to `block_min`, and keep `(id, minutes,
orig)`.  The first task whose coercion raises aborts the loop. -/
def convertTasks (block_min : Int) : List Task → Except Unit (List Item)
  | [] => Except.ok []
  | t :: ts =>
    match to_minutes t with
    | Except.error e => Except.error e
    | Except.ok m =>
      match convertTasks block_min ts with
      | Except.error e => Except.error e
      | Except.ok rest =>
        Except.ok (⟨t.id, if m < block_min then block_min else m, t⟩ :: rest)

/-- Comparison by a key into a linear order; the relation Python's
key-based `sort`/`sorted` orders by. -/
def keyedLe (f : α → β) [LE β] : α → α → Prop := fun a b => f a ≤ f b

instance keyedLeDecidable [LinearOrder β] (f : α → β) :
    DecidableRel (keyedLe f) :=
  fun a b => inferInstanceAs (Decidable (f a ≤ f b))

instance keyedLeTotal [LinearOrder β] (f : α → β) : IsTotal α (keyedLe f) :=
  ⟨fun a b => le_total (f a) (f b)⟩

instance keyedLeTrans [LinearOrder β] (f : α → β) : IsTrans α (keyedLe f) :=
  ⟨fun _ _ _ h h' => le_trans h h'⟩

/-- The orderer's sort key (scheduler.py line 75):
`(-x["minutes"], str(x["id"]))`. -/
def itemKey (x : Item) : Int ×ₗ List Char := toLex (-x.minutes, pyStr x.id)

/-- One placement inside a day bin (scheduler.py lines 99-105). -/
structure BinEntry where
  task_id : PyVal
  start_min : Int
  end_min : Int
  duration_min : Int
  split_recommended : Bool
deriving DecidableEq

/-- An in-progress day bin (scheduler.py line 77):
`{"load": int, "tasks": [entries]}`. -/
structure Bin where
  load : Int
  tasks : List BinEntry
deriving DecidableEq

/-- `days[i]["load"]`, with 0 out of range (every access in the source is
in range). -/
def loadAt (days : List Bin) (i : Nat) : Int :=
  ((days.get? i).map Bin.load).getD 0

/-- `sorted(range(len(days)), key=lambda i: (days[i]["load"], i))`
(scheduler.py line 85).  The key includes the index, so the order is
strict and which stable sorting algorithm is used is irrelevant. -/
def candidateOrder (days : List Bin) : List Nat :=
  List.insertionSort (keyedLe (fun i => toLex (loadAt days i, i)))
    (List.range days.length)

/-- The candidate scan (scheduler.py lines 86-89): the first day index, in
candidate order, whose load still fits `m` under `cap`. -/
def findSlot (days : List Bin) (m cap : Int) : Option Nat :=
  (candidateOrder days).find? (fun di => decide (loadAt days di + m ≤ cap))

/-- Replace the `i`-th element by `f` applied to it (Python's in-place
mutation of `days[candidate_day_idx]`). -/
def updateAt : List Bin → Nat → (Bin → Bin) → List Bin
  | [], _, _ => []
  | b :: bs, 0, f => f b :: bs
  | b :: bs, Nat.succ n, f => b :: updateAt bs n f

/-- The bin entry built by the placement code (scheduler.py lines 99-105)
for an item placed at `start_min = s`: `end_min = s + minutes`,
`split_recommended = minutes > block_max`. -/
def mkBE (s block_max : Int) (it : Item) : BinEntry :=
  { task_id := it.id, start_min := s, end_min := s + it.minutes,
    duration_min := it.minutes,
    split_recommended := decide (it.minutes > block_max) }

/-- Appending one placement to a bin (scheduler.py lines 96-106):
`start_min = load`, the entry above, then `load += minutes`. -/
def appendTask (block_max : Int) (it : Item) (b : Bin) : Bin :=
  { load := b.load + it.minutes, tasks := b.tasks ++ [mkBE b.load block_max it] }

/-- One iteration of the placement loop (scheduler.py lines 81-106): find
the first fitting bin in candidate order; if none fits, append a fresh
empty bin (`{"load": 0, "tasks": []}`) and use its index `len(days) - 1`;
then place the task there. -/
def placeItem (cap block_max : Int) (days : List Bin) (it : Item) : List Bin :=
  match findSlot days it.minutes cap with
  | Option.some di => updateAt days di (appendTask block_max it)
  | Option.none => updateAt (days ++ [⟨0, []⟩]) days.length (appendTask block_max it)

/-- The whole placement loop over the sorted items. -/
def placeAll (cap block_max : Int) (items : List Item) : List Bin :=
  items.foldl (placeItem cap block_max) []

/-- Gregorian leap year (as Python's `datetime.date` uses). -/
def isLeap (y : Nat) : Bool := (y % 4 = 0 ∧ y % 100 ≠ 0) ∨ y % 400 = 0

def daysInMonth (y m : Nat) : Nat :=
  if m = 2 then (if isLeap y then 29 else 28)
  else if m = 4 ∨ m = 6 ∨ m = 9 ∨ m = 11 then 30
  else 31

/-- Days in the months of year `y` strictly before month `m`. -/
def daysBeforeMonth (y : Nat) : Nat → Nat
  | 0 => 0
  | Nat.succ p => if p = 0 then 0 else daysBeforeMonth y p + daysInMonth y p

/-- Proleptic-Gregorian ordinal of a date, as `datetime.date.toordinal`:
0001-01-01 is day 1. -/
def dateOrdinal (y m d : Nat) : Int :=
  (365 * (y - 1) + (y - 1) / 4 - (y - 1) / 100 + (y - 1) / 400
    + daysBeforeMonth y m + d : Nat)

/-- `datetime.fromisoformat` restricted to the `YYYY-MM-DD` form the source
documents (scheduler.py line 112): ten characters, digits in the date
positions, dashes at positions 4 and 7, month in 1..12, day in 1..the
month's length, year in Python's 1..9999.  Returns the date's ordinal. -/
def parseIsoDate (s : List Char) : Option Int :=
  match s with
  | [y1, y2, y3, y4, h1, m1, m2, h2, d1, d2] =>
    if y1.isDigit ∧ y2.isDigit ∧ y3.isDigit ∧ y4.isDigit ∧ h1 = '-' ∧
        m1.isDigit ∧ m2.isDigit ∧ h2 = '-' ∧ d1.isDigit ∧ d2.isDigit then
      let y := (y1.toNat - 48) * 1000 + (y2.toNat - 48) * 100 +
        (y3.toNat - 48) * 10 + (y4.toNat - 48)
      let m := (m1.toNat - 48) * 10 + (m2.toNat - 48)
      let d := (d1.toNat - 48) * 10 + (d2.toNat - 48)
      if 1 ≤ y ∧ 1 ≤ m ∧ m ≤ 12 ∧ 1 ≤ d ∧ d ≤ daysInMonth y m then
        Option.some (dateOrdinal y m d)
      else Option.none
    else Option.none
  | _ => Option.none

/-- Errors escaping `create_schedule`, tagged by raising site. -/
inductive SchedErr where
  | configError
  | convError
  | dateError
deriving DecidableEq

/-- `start_date = availability.get("start_date"); if start_date:
base_date = datetime.fromisoformat(start_date)` (scheduler.py lines
109-113).  A truthy non-string or a malformed date string raises; a falsy
or absent value leaves `base_date = None`.  The parsed datetime is
abstracted by its day ordinal. -/
def parseBase (a : Availability) : Except SchedErr (Option Int) :=
  let sd := a.start_date.getD PyVal.none
  if truthy sd then
    match sd with
    | PyVal.str s =>
      match parseIsoDate s with
      | Option.some n => Except.ok (Option.some n)
      | Option.none => Except.error SchedErr.dateError
    | _ => Except.error SchedErr.dateError
  else Except.ok Option.none

/-- One output entry.  `start_ts`/`end_ts` abstract the ISO timestamp
`base_date + day days + minute minutes` by its total minute count since
0001-01-01; within one call the base is fixed, so this abstraction
distinguishes timestamps exactly where the ISO strings differ. -/
structure Entry where
  task_id : PyVal
  day : Nat
  start_min : Int
  end_min : Int
  duration_min : Int
  split_recommended : Bool
  start_ts : Option Int
  end_ts : Option Int
deriving DecidableEq

/-- `entry = dict(t); entry["day"] = di;` plus the optional timestamp
projection (scheduler.py lines 117-126). -/
def entryOfBE (base : Option Int) (di : Nat) (t : BinEntry) : Entry :=
  { task_id := t.task_id, day := di, start_min := t.start_min,
    end_min := t.end_min, duration_min := t.duration_min,
    split_recommended := t.split_recommended,
    start_ts := base.map (fun b => (b + (di : Int)) * 1440 + t.start_min),
    end_ts := base.map (fun b => (b + (di : Int)) * 1440 + t.end_min) }

/-- The flattening loop `for di, d in enumerate(days): for t in
d["tasks"]: ...` (scheduler.py lines 115-127), starting at day index `i`. -/
def flattenDays (base : Option Int) : Nat → List Bin → List Entry
  | _, [] => []
  | i, b :: bs => b.tasks.map (entryOfBE base i) ++ flattenDays base (i + 1) bs

/-- The canonicalizer's sort key (scheduler.py line 130):
`(r["day"], r["start_min"], str(r.get("task_id")))`. -/
def outKey (e : Entry) : Nat ×ₗ (Int ×ₗ List Char) :=
  toLex (e.day, toLex (e.start_min, pyStr e.task_id))

/-- `create_schedule` (scheduler.py lines 36-131). -/
def create_schedule (tasks : List Task) (availability : Availability)
    (block_min block_max : Int) (buffer_ratio : Flt) :
    Except SchedErr (List Entry) :=
  match capacity_per_day availability buffer_ratio with
  | Except.error _ => Except.error SchedErr.convError
  | Except.ok cap =>
    if cap ≤ 0 then Except.error SchedErr.configError
    else
      match convertTasks block_min tasks with
      | Except.error _ => Except.error SchedErr.convError
      | Except.ok converted =>
        let sortedItems := List.insertionSort (keyedLe itemKey) converted
        let days := placeAll cap block_max sortedItems
        match parseBase availability with
        | Except.error e => Except.error e
        | Except.ok base =>
          Except.ok (List.insertionSort (keyedLe outKey) (flattenDays base 0 days))

/-- Source default for `block_min`. -/
def defaultBlockMin : Int := 25

/-- Source default for `block_max`. -/
def defaultBlockMax : Int := 90

/-- Source default for `buffer_ratio = 0.25`. -/
def defaultBufferRatio : Flt := ⟨25, 100⟩

/-! ## Generic facts about key-based stable sorting -/

/-- Strict companion of `keyedLe`. -/
def keyedLt (f : α → β) [LT β] : α → α → Prop := fun a b => f a < f b

instance keyedLtAntisymm [LinearOrder β] (f : α → β) : IsAntisymm α (keyedLt f) :=
  ⟨fun _ _ h h' => absurd h' (lt_asymm h)⟩

theorem sorted_keyedLt [LinearOrder β] {f : α → β} {l : List α}
    (hs : l.Sorted (keyedLe f)) (hn : (l.map f).Nodup) :
    l.Sorted (keyedLt f) := by
  have hne : l.Pairwise (fun a b => f a ≠ f b) := List.pairwise_map.mp hn
  exact (hs.and hne).imp (fun h => lt_of_le_of_ne h.1 h.2)

/-- Sorting by an injective-on-the-list key is independent of the input
order: any two permuted inputs with duplicate-free keys sort to the same
list. -/
theorem insertionSort_eq_of_perm [LinearOrder β] (f : α → β) {l₁ l₂ : List α}
    (hp : l₁.Perm l₂) (hn : (l₁.map f).Nodup) :
    List.insertionSort (keyedLe f) l₁ = List.insertionSort (keyedLe f) l₂ := by
  have hp' : (List.insertionSort (keyedLe f) l₁).Perm
      (List.insertionSort (keyedLe f) l₂) :=
    (List.perm_insertionSort _ _).trans (hp.trans (List.perm_insertionSort _ _).symm)
  have hn₁ : ((List.insertionSort (keyedLe f) l₁).map f).Nodup :=
    (((List.perm_insertionSort (keyedLe f) l₁).map f).symm).nodup hn
  have hn₂ : ((List.insertionSort (keyedLe f) l₂).map f).Nodup :=
    (hp'.map f).nodup hn₁
  exact List.eq_of_perm_of_sorted hp'
    (sorted_keyedLt (List.sorted_insertionSort _ _) hn₁)
    (sorted_keyedLt (List.sorted_insertionSort _ _) hn₂)

/-- In a `keyedLe`-sorted list, `find?` returns an element whose key is
minimal among all elements satisfying the predicate. -/
theorem find?_sorted_min [LinearOrder β] {f : α → β} :
    ∀ {l : List α} {p : α → Bool} {x : α}, l.Sorted (keyedLe f) →
      l.find? p = Option.some x → ∀ y ∈ l, p y = true → f x ≤ f y := by
  intro l
  induction l with
  | nil => intro p x _ h; simp at h
  | cons a t ih =>
    intro p x hs hf y hy hp
    by_cases hpa : p a = true
    · rw [List.find?_cons_of_pos _ hpa, Option.some.injEq] at hf
      subst hf
      rcases List.mem_cons.mp hy with rfl | hyt
      · exact le_refl _
      · exact (List.sorted_cons.mp hs).1 y hyt
    · rw [List.find?_cons_of_neg _ hpa] at hf
      rcases List.mem_cons.mp hy with rfl | hyt
      · exact absurd hp hpa
      · exact ih (List.sorted_cons.mp hs).2 hf y hyt hp

/-! ## The candidate scan -/

theorem candidateOrder_perm (days : List Bin) :
    (candidateOrder days).Perm (List.range days.length) :=
  List.perm_insertionSort _ _

theorem candidateOrder_sorted (days : List Bin) :
    (candidateOrder days).Sorted (keyedLe (fun i => toLex (loadAt days i, i))) :=
  List.sorted_insertionSort _ _

/-- A successful candidate scan returns an in-range, fitting day index
whose `(load, index)` pair is lexicographically minimal among all fitting
day indices: the first fitting bin in `(load ascending, index ascending)`
order. -/
theorem findSlot_some {days : List Bin} {m cap : Int} {di : Nat}
    (h : findSlot days m cap = Option.some di) :
    di < days.length ∧ loadAt days di + m ≤ cap ∧
      ∀ j, j < days.length → loadAt days j + m ≤ cap →
        loadAt days di < loadAt days j ∨
          (loadAt days di = loadAt days j ∧ di ≤ j) := by
  rw [findSlot] at h
  have hdi : di ∈ List.range days.length :=
    (candidateOrder_perm days).subset (List.mem_of_find?_eq_some h)
  have hfit : loadAt days di + m ≤ cap := by simpa using List.find?_some h
  refine ⟨List.mem_range.mp hdi, hfit, ?_⟩
  intro j hj hjfit
  have hjmem : j ∈ candidateOrder days :=
    ((candidateOrder_perm days).mem_iff).mpr (List.mem_range.mpr hj)
  have hmin := find?_sorted_min (candidateOrder_sorted days) h j hjmem
    (decide_eq_true hjfit)
  rcases (Prod.Lex.le_iff _ _).mp hmin with h1 | ⟨h1, h2⟩
  · exact Or.inl h1
  · exact Or.inr ⟨h1, h2⟩

/-- A failed candidate scan means no existing day fits. -/
theorem findSlot_none {days : List Bin} {m cap : Int}
    (h : findSlot days m cap = Option.none) :
    ∀ j, j < days.length → ¬(loadAt days j + m ≤ cap) := by
  rw [findSlot] at h
  intro j hj hcon
  exact List.find?_eq_none.mp h j
    (((candidateOrder_perm days).mem_iff).mpr (List.mem_range.mpr hj))
    (decide_eq_true hcon)

/-! ## `updateAt` -/

theorem updateAt_length (f : Bin → Bin) :
    ∀ (l : List Bin) (i : Nat), (updateAt l i f).length = l.length := by
  intro l
  induction l with
  | nil => intro i; rfl
  | cons b bs ih =>
    intro i
    cases i with
    | zero => rfl
    | succ n => simpa [updateAt] using ih n

theorem updateAt_get?_self (f : Bin → Bin) :
    ∀ (l : List Bin) (i : Nat), (updateAt l i f).get? i = (l.get? i).map f := by
  intro l
  induction l with
  | nil => intro i; cases i <;> rfl
  | cons b bs ih =>
    intro i
    cases i with
    | zero => rfl
    | succ n => simpa [updateAt] using ih n

theorem updateAt_get?_ne (f : Bin → Bin) :
    ∀ (l : List Bin) (i j : Nat), j ≠ i →
      (updateAt l i f).get? j = l.get? j := by
  intro l
  induction l with
  | nil => intro i j _; cases j <;> rfl
  | cons b bs ih =>
    intro i j hne
    cases i with
    | zero =>
      cases j with
      | zero => exact absurd rfl hne
      | succ n => rfl
    | succ n =>
      cases j with
      | zero => rfl
      | succ k => simpa [updateAt] using ih n k (fun h => hne (by omega))

/-- Every bin of the updated list is an untouched bin of the original or
the image of the bin at the updated index. -/
theorem updateAt_mem {f : Bin → Bin} :
    ∀ {l : List Bin} {i : Nat} {b' : Bin}, b' ∈ updateAt l i f →
      b' ∈ l ∨ ∃ b, l.get? i = Option.some b ∧ b' = f b := by
  intro l
  induction l with
  | nil => intro i b' h; cases h
  | cons b bs ih =>
    intro i b' h
    cases i with
    | zero =>
      rcases List.mem_cons.mp h with rfl | hmem
      · exact Or.inr ⟨b, rfl, rfl⟩
      · exact Or.inl (List.mem_cons_of_mem _ hmem)
    | succ n =>
      rcases List.mem_cons.mp h with rfl | hmem
      · exact Or.inl (List.mem_cons_self _ _)
      · rcases ih hmem with hb | ⟨b0, hb0, rfl⟩
        · exact Or.inl (List.mem_cons_of_mem _ hb)
        · exact Or.inr ⟨b0, hb0, rfl⟩

theorem updateAt_append_singleton (f : Bin → Bin) :
    ∀ (l : List Bin) (b : Bin), updateAt (l ++ [b]) l.length f = l ++ [f b] := by
  intro l
  induction l with
  | nil => intro b; rfl
  | cons x xs ih => intro b; simp [updateAt, ih]

/-! ## Bin contents and the placement invariant -/

/-- All placements of all bins, in bin order. -/
def binTasks (ds : List Bin) : List BinEntry := (ds.map Bin.tasks).flatten

/-- Total `duration_min` of a list of placements. -/
def sumDur (l : List BinEntry) : Int := (l.map BinEntry.duration_min).sum

@[simp] theorem binTasks_nil : binTasks [] = [] := rfl

@[simp] theorem binTasks_cons (b : Bin) (bs : List Bin) :
    binTasks (b :: bs) = b.tasks ++ binTasks bs := by
  simp [binTasks]

@[simp] theorem binTasks_append (l₁ l₂ : List Bin) :
    binTasks (l₁ ++ l₂) = binTasks l₁ ++ binTasks l₂ := by
  simp [binTasks]

@[simp] theorem sumDur_nil : sumDur [] = 0 := rfl

@[simp] theorem sumDur_cons (e : BinEntry) (l : List BinEntry) :
    sumDur (e :: l) = e.duration_min + sumDur l := by
  simp [sumDur]

@[simp] theorem sumDur_append (l₁ l₂ : List BinEntry) :
    sumDur (l₁ ++ l₂) = sumDur l₁ + sumDur l₂ := by
  simp [sumDur]

/-- The placements of a day, laid out back to back starting at minute `s`:
each entry starts where the accumulated load left off and ends
`duration_min` later. -/
def ChainFrom : Int → List BinEntry → Prop
  | _, [] => True
  | s, e :: r =>
    e.start_min = s ∧ e.end_min = s + e.duration_min ∧ ChainFrom e.end_min r

theorem chainFrom_append {e : BinEntry} :
    ∀ {l : List BinEntry} {s : Int}, ChainFrom s l →
      e.start_min = s + sumDur l →
      e.end_min = e.start_min + e.duration_min →
      ChainFrom s (l ++ [e]) := by
  intro l
  induction l with
  | nil =>
    intro s _ h1 h2
    exact ⟨by simpa using h1, by simp at h1; omega, trivial⟩
  | cons x xs ih =>
    intro s hc h1 h2
    obtain ⟨hx1, hx2, hxs⟩ := hc
    refine ⟨hx1, hx2, ih hxs ?_ h2⟩
    simp at h1
    omega

/-- The loop invariant of the placement loop: every bin's `load` equals the
total duration of its placements, placements are contiguous from minute 0,
every placement respects the minimum block size, and a bin exceeds the
capacity only if it holds exactly one (oversized) placement. -/
structure BinsInv (cap bmin : Int) (bins : List Bin) : Prop where
  loads : ∀ b ∈ bins, b.load = sumDur b.tasks
  chains : ∀ b ∈ bins, ChainFrom 0 b.tasks
  durs : ∀ b ∈ bins, ∀ e ∈ b.tasks, bmin ≤ e.duration_min
  capok : ∀ b ∈ bins, b.load ≤ cap ∨ ∃ e, b.tasks = [e] ∧ cap < e.duration_min

theorem binsInv_nil (cap bmin : Int) : BinsInv cap bmin [] :=
  ⟨fun b hb => absurd hb (List.not_mem_nil b),
   fun b hb => absurd hb (List.not_mem_nil b),
   fun b hb => absurd hb (List.not_mem_nil b),
   fun b hb => absurd hb (List.not_mem_nil b)⟩

theorem binsInv_placeItem {cap bmin bM : Int} {ds : List Bin} {it : Item}
    (h : BinsInv cap bmin ds) (hm : bmin ≤ it.minutes) :
    BinsInv cap bmin (placeItem cap bM ds it) := by
  rw [placeItem]
  cases hs : findSlot ds it.minutes cap with
  | some di =>
    obtain ⟨hlt, hfit, _⟩ := findSlot_some hs
    have hb : ds.get? di = Option.some ds[di] := by
      rw [List.get?_eq_getElem?]
      exact List.getElem?_eq_getElem hlt
    have hbmem : ds[di] ∈ ds := List.getElem_mem hlt
    have hload : loadAt ds di = ds[di].load := by rw [loadAt, hb]; rfl
    constructor <;> intro b' hb'
    all_goals
      rcases updateAt_mem hb' with hmem | ⟨b0, hb0, rfl⟩
    · exact h.loads b' hmem
    · rw [hb] at hb0
      injection hb0 with hb0
      subst hb0
      simp [appendTask, mkBE, h.loads _ hbmem]
    · exact h.chains b' hmem
    · rw [hb] at hb0
      injection hb0 with hb0
      subst hb0
      exact chainFrom_append (h.chains _ hbmem)
        (by simp [mkBE, h.loads _ hbmem]) (by simp [mkBE])
    · exact h.durs b' hmem
    · rw [hb] at hb0
      injection hb0 with hb0
      subst hb0
      intro e he
      rcases List.mem_append.mp he with he | he
      · exact h.durs _ hbmem e he
      · rcases List.mem_singleton.mp he with rfl
        simpa [mkBE] using hm
    · exact h.capok b' hmem
    · rw [hb] at hb0
      injection hb0 with hb0
      subst hb0
      left
      have hfit' : ds[di].load + it.minutes ≤ cap := by rwa [hload] at hfit
      simpa [appendTask] using hfit'
  | none =>
    rw [updateAt_append_singleton]
    constructor <;> intro b' hb'
    all_goals
      rcases List.mem_append.mp hb' with hmem | hnew
    · exact h.loads b' hmem
    · rcases List.mem_singleton.mp hnew with rfl
      simp [appendTask, mkBE]
    · exact h.chains b' hmem
    · rcases List.mem_singleton.mp hnew with rfl
      exact ⟨rfl, by simp [appendTask, mkBE], trivial⟩
    · exact h.durs b' hmem
    · rcases List.mem_singleton.mp hnew with rfl
      intro e he
      rcases List.mem_singleton.mp (by simpa [appendTask] using he) with rfl
      simpa [mkBE] using hm
    · exact h.capok b' hmem
    · rcases List.mem_singleton.mp hnew with rfl
      by_cases hc : it.minutes ≤ cap
      · left; simp [appendTask]; omega
      · right
        exact ⟨mkBE 0 bM it, by simp [appendTask], by simp [mkBE]; omega⟩

theorem binsInv_foldl {cap bmin bM : Int} :
    ∀ {items : List Item} {ds : List Bin},
      (∀ it ∈ items, bmin ≤ it.minutes) → BinsInv cap bmin ds →
      BinsInv cap bmin (items.foldl (placeItem cap bM) ds) := by
  intro items
  induction items with
  | nil => intro ds _ hds; exact hds
  | cons x xs ih =>
    intro ds hm hds
    rw [List.foldl_cons]
    exact ih (fun it hit => hm it (List.mem_cons_of_mem _ hit))
      (binsInv_placeItem hds (hm x (List.mem_cons_self _ _)))

theorem binsInv_placeAll {cap bmin bM : Int} {items : List Item}
    (hm : ∀ it ∈ items, bmin ≤ it.minutes) :
    BinsInv cap bmin (placeAll cap bM items) :=
  binsInv_foldl hm (binsInv_nil cap bmin)

/-! ## What one placement adds to the bins -/

theorem binTasks_updateAt {bM : Int} {it : Item} :
    ∀ {ds : List Bin} {di : Nat} {b : Bin}, ds.get? di = Option.some b →
      (binTasks (updateAt ds di (appendTask bM it))).Perm
        (binTasks ds ++ [mkBE b.load bM it]) := by
  intro ds
  induction ds with
  | nil => intro di b h; cases di <;> cases h
  | cons x xs ih =>
    intro di b h
    cases di with
    | zero =>
      rw [List.get?_cons_zero, Option.some.injEq] at h
      subst h
      simp only [updateAt, binTasks_cons, appendTask, List.append_assoc]
      exact List.Perm.append_left x.tasks
        (@List.perm_append_comm _ [mkBE x.load bM it] (binTasks xs))
    | succ n =>
      rw [List.get?_cons_succ] at h
      simp only [updateAt, binTasks_cons, List.append_assoc]
      exact List.Perm.append_left x.tasks (ih h)

/-- Each loop iteration adds exactly one placement, carrying the item's id
and minutes, at some start offset `s`. -/
theorem placeItem_binTasks (cap bM : Int) (ds : List Bin) (it : Item) :
    ∃ s, (binTasks (placeItem cap bM ds it)).Perm
      (binTasks ds ++ [mkBE s bM it]) := by
  rw [placeItem]
  cases hs : findSlot ds it.minutes cap with
  | some di =>
    have hlt := (findSlot_some hs).1
    exact ⟨ds[di].load, binTasks_updateAt (by
      rw [List.get?_eq_getElem?]
      exact List.getElem?_eq_getElem hlt)⟩
  | none =>
    refine ⟨0, ?_⟩
    rw [updateAt_append_singleton]
    have : binTasks (ds ++ [appendTask bM it ⟨0, []⟩]) =
        binTasks ds ++ [mkBE 0 bM it] := by simp [appendTask]
    rw [this]

/-- Over the whole loop: the placed entries' ids are a permutation of the
items' ids. -/
theorem foldl_place_ids {cap bM : Int} :
    ∀ {items : List Item} {ds : List Bin},
      ((binTasks (items.foldl (placeItem cap bM) ds)).map BinEntry.task_id).Perm
        ((binTasks ds).map BinEntry.task_id ++ items.map Item.id) := by
  intro items
  induction items with
  | nil => intro ds; simp
  | cons x xs ih =>
    intro ds
    rw [List.foldl_cons]
    refine ih.trans ?_
    obtain ⟨s, hp⟩ := placeItem_binTasks cap bM ds x
    have hone : ((binTasks (placeItem cap bM ds x)).map BinEntry.task_id).Perm
        ((binTasks ds).map BinEntry.task_id ++ [x.id]) := by
      simpa [mkBE] using hp.map BinEntry.task_id
    refine (hone.append_right (xs.map Item.id)).trans (List.Perm.of_eq ?_)
    simp

theorem placeAll_ids {cap bM : Int} {items : List Item} :
    ((binTasks (placeAll cap bM items)).map BinEntry.task_id).Perm
      (items.map Item.id) := by
  simpa [placeAll] using @foldl_place_ids cap bM items []

/-! ## Flattening -/

@[simp] theorem entryOfBE_task_id (base : Option Int) (di : Nat) (t : BinEntry) :
    (entryOfBE base di t).task_id = t.task_id := rfl

@[simp] theorem entryOfBE_day (base : Option Int) (di : Nat) (t : BinEntry) :
    (entryOfBE base di t).day = di := rfl

@[simp] theorem entryOfBE_start_min (base : Option Int) (di : Nat) (t : BinEntry) :
    (entryOfBE base di t).start_min = t.start_min := rfl

@[simp] theorem entryOfBE_end_min (base : Option Int) (di : Nat) (t : BinEntry) :
    (entryOfBE base di t).end_min = t.end_min := rfl

@[simp] theorem entryOfBE_duration_min (base : Option Int) (di : Nat) (t : BinEntry) :
    (entryOfBE base di t).duration_min = t.duration_min := rfl

@[simp] theorem entryOfBE_split (base : Option Int) (di : Nat) (t : BinEntry) :
    (entryOfBE base di t).split_recommended = t.split_recommended := rfl

theorem flattenDays_map_task_id (base : Option Int) :
    ∀ (i : Nat) (bs : List Bin),
      (flattenDays base i bs).map Entry.task_id =
        (binTasks bs).map BinEntry.task_id := by
  intro i bs
  induction bs generalizing i with
  | nil => rfl
  | cons b t ih => simp [flattenDays, ih, Function.comp_def]

theorem flattenDays_day_ge (base : Option Int) :
    ∀ (i : Nat) (bs : List Bin) (e : Entry), e ∈ flattenDays base i bs →
      i ≤ e.day := by
  intro i bs
  induction bs generalizing i with
  | nil => intro e he; cases he
  | cons b t ih =>
    intro e he
    rcases List.mem_append.mp he with hm | hm
    · rcases List.mem_map.mp hm with ⟨x, _, rfl⟩
      simp
    · exact Nat.le_of_succ_le (ih (i + 1) e hm)

theorem flattenDays_mem (base : Option Int) :
    ∀ (i : Nat) (bs : List Bin) (e : Entry), e ∈ flattenDays base i bs →
      ∃ b ∈ bs, ∃ t ∈ b.tasks, e = entryOfBE base e.day t := by
  intro i bs
  induction bs generalizing i with
  | nil => intro e he; cases he
  | cons b bt ih =>
    intro e he
    rcases List.mem_append.mp he with hm | hm
    · rcases List.mem_map.mp hm with ⟨x, hx, rfl⟩
      exact ⟨b, List.mem_cons_self _ _, x, hx, rfl⟩
    · rcases ih (i + 1) e hm with ⟨b0, hb0, x, hx, hex⟩
      exact ⟨b0, List.mem_cons_of_mem _ hb0, x, hx, hex⟩

theorem flattenDays_filter_lt (base : Option Int) :
    ∀ (i : Nat) (bs : List Bin) (d : Nat), d < i →
      (flattenDays base i bs).filter (fun e => decide (e.day = d)) = [] := by
  intro i bs d hd
  rw [List.filter_eq_nil]
  intro e he
  have := flattenDays_day_ge base i bs e he
  simp
  omega

/-- The entries of day `i + j` in the flattened output are exactly bin
`j`'s placements, projected to entries of that day, in bin order. -/
theorem flattenDays_filter (base : Option Int) :
    ∀ (bs : List Bin) (i j : Nat),
      (flattenDays base i bs).filter (fun e => decide (e.day = i + j)) =
        match bs.get? j with
        | Option.some b => b.tasks.map (entryOfBE base (i + j))
        | Option.none => [] := by
  intro bs
  induction bs with
  | nil => intro i j; cases j <;> rfl
  | cons b t ih =>
    intro i j
    rw [flattenDays, List.filter_append]
    cases j with
    | zero =>
      have h1 : (b.tasks.map (entryOfBE base i)).filter
          (fun e => decide (e.day = i + 0)) = b.tasks.map (entryOfBE base i) := by
        rw [List.filter_eq_self]
        intro e he
        rcases List.mem_map.mp he with ⟨x, _, rfl⟩
        simp
      rw [h1, flattenDays_filter_lt base (i + 1) t (i + 0) (by omega)]
      simp
    | succ n =>
      have h1 : (b.tasks.map (entryOfBE base i)).filter
          (fun e => decide (e.day = i + (n + 1))) = [] := by
        rw [List.filter_eq_nil]
        intro e he
        rcases List.mem_map.mp he with ⟨x, _, rfl⟩
        simp
      have h2 := ih (i + 1) n
      have hij : i + 1 + n = i + (n + 1) := by omega
      rw [hij] at h2
      rw [h1, h2]
      simp

/-! ## The conversion loop -/

theorem convertTasks_ok_minutes {bm : Int} :
    ∀ {l : List Task} {items : List Item}, convertTasks bm l = Except.ok items →
      ∀ it ∈ items, bm ≤ it.minutes := by
  intro l
  induction l with
  | nil =>
    intro items h it hit
    rw [convertTasks] at h
    injection h with h
    subst h
    cases hit
  | cons t ts ih =>
    intro items h it hit
    rw [convertTasks] at h
    cases hm : to_minutes t with
    | error e => rw [hm] at h; cases h
    | ok m =>
      rw [hm] at h
      cases hr : convertTasks bm ts with
      | error e => rw [hr] at h; cases h
      | ok rest =>
        rw [hr] at h
        injection h with h
        subst h
        rcases List.mem_cons.mp hit with rfl | hmem
        · change bm ≤ if m < bm then bm else m
          split <;> omega
        · exact ih hr it hmem

theorem convertTasks_ids {bm : Int} :
    ∀ {l : List Task} {items : List Item}, convertTasks bm l = Except.ok items →
      items.map Item.id = l.map Task.id := by
  intro l
  induction l with
  | nil =>
    intro items h
    rw [convertTasks] at h
    injection h with h
    subst h
    rfl
  | cons t ts ih =>
    intro items h
    rw [convertTasks] at h
    cases hm : to_minutes t with
    | error e => rw [hm] at h; cases h
    | ok m =>
      rw [hm] at h
      cases hr : convertTasks bm ts with
      | error e => rw [hr] at h; cases h
      | ok rest =>
        rw [hr] at h
        injection h with h
        subst h
        simp [ih hr]

/-- Tasks whose duration fields all convert produce a converted list. -/
theorem convertTasks_of_all_ok {bm : Int} :
    ∀ {l : List Task}, (∀ t ∈ l, ∃ m, to_minutes t = Except.ok m) →
      ∃ items, convertTasks bm l = Except.ok items := by
  intro l
  induction l with
  | nil => intro _; exact ⟨[], rfl⟩
  | cons t ts ih =>
    intro hall
    obtain ⟨m, hm⟩ := hall t (List.mem_cons_self _ _)
    obtain ⟨rest, hr⟩ := ih (fun x hx => hall x (List.mem_cons_of_mem _ hx))
    exact ⟨_, by rw [convertTasks, hm, hr]⟩

/-- The conversion loop under a permutation of its input: either both runs
raise, or both succeed with permuted converted lists. -/
theorem convertTasks_perm {bm : Int} {l₁ l₂ : List Task} (hp : l₁.Perm l₂) :
    (convertTasks bm l₁ = Except.error () ∧ convertTasks bm l₂ = Except.error ()) ∨
    ∃ i₁ i₂, convertTasks bm l₁ = Except.ok i₁ ∧ convertTasks bm l₂ = Except.ok i₂ ∧
      i₁.Perm i₂ := by
  induction hp with
  | nil => exact Or.inr ⟨[], [], rfl, rfl, List.Perm.refl _⟩
  | cons x hp ih =>
    cases hm : to_minutes x with
    | error e =>
      cases e
      left
      constructor <;> (rw [convertTasks, hm])
    | ok m =>
      rcases ih with ⟨h1, h2⟩ | ⟨i1, i2, h1, h2, hp12⟩
      · left
        constructor <;> (rw [convertTasks, hm]) <;> simp [h1, h2]
      · right
        refine ⟨_, _, by rw [convertTasks, hm, h1], by rw [convertTasks, hm, h2], ?_⟩
        exact hp12.cons _
  | swap x y t =>
    cases hx : to_minutes x with
    | error e =>
      cases e
      cases hy : to_minutes y with
      | error e' =>
        cases e'
        left
        constructor <;> (rw [convertTasks]) <;> simp [hx, hy, convertTasks]
      | ok my =>
        left
        constructor <;> (rw [convertTasks]) <;> simp [hx, hy, convertTasks]
    | ok mx =>
      cases hy : to_minutes y with
      | error e' =>
        cases e'
        left
        constructor <;> (rw [convertTasks]) <;> simp [hx, hy, convertTasks]
      | ok my =>
        cases ht : convertTasks bm t with
        | error e' =>
          cases e'
          left
          constructor <;> (rw [convertTasks]) <;> simp [hx, hy, convertTasks, ht]
        | ok rest =>
          right
          refine ⟨⟨y.id, if my < bm then bm else my, y⟩ ::
              ⟨x.id, if mx < bm then bm else mx, x⟩ :: rest,
            ⟨x.id, if mx < bm then bm else mx, x⟩ ::
              ⟨y.id, if my < bm then bm else my, y⟩ :: rest, ?_, ?_, ?_⟩
          · rw [convertTasks, hy]
            simp [convertTasks, hx, ht]
          · rw [convertTasks, hx]
            simp [convertTasks, hy, ht]
          · exact List.Perm.swap _ _ _
  | trans hp1 hp2 ih1 ih2 =>
    rcases ih1 with ⟨h1, h2⟩ | ⟨i1, i2, h1, h2, hp12⟩
    · rcases ih2 with ⟨h3, h4⟩ | ⟨i3, i4, h3, h4, _⟩
      · exact Or.inl ⟨h1, h4⟩
      · rw [h2] at h3; cases h3
    · rcases ih2 with ⟨h3, h4⟩ | ⟨i3, i4, h3, h4, hp34⟩
      · rw [h2] at h3; cases h3
      · rw [h2] at h3
        injection h3 with h3
        subst h3
        exact Or.inr ⟨i1, i4, h1, h4, hp12.trans hp34⟩

/-! ## Python equality of id values -/

/-- Python `==` restricted to the values a task id can take: `None` equals
only `None`, numbers compare by value across int/float, strings compare by
contents, and number/string/None cross-comparisons are unequal. -/
def pyEq : PyVal → PyVal → Bool
  | PyVal.none, PyVal.none => true
  | PyVal.int n, PyVal.int m => decide (n = m)
  | PyVal.int n, PyVal.float a => decide (n * (a.den : Int) = a.num)
  | PyVal.float a, PyVal.int n => decide (a.num = n * (a.den : Int))
  | PyVal.float a, PyVal.float b =>
    decide (a.num * (b.den : Int) = b.num * (a.den : Int))
  | PyVal.str s, PyVal.str t => decide (s = t)
  | _, _ => false

theorem pyEq_symm (a b : PyVal) : pyEq a b = pyEq b a := by
  cases a <;> cases b <;> simp [pyEq, eq_comm]

/-! ## Unfolding a successful run -/

theorem parseBase_ne_configError (a : Availability) :
    parseBase a ≠ Except.error SchedErr.configError := by
  rw [parseBase]
  split
  · split
    · split <;> simp
    · simp
  · simp

/-- A successful `create_schedule` run, decomposed into its pipeline
stages. -/
theorem create_schedule_ok {tasks : List Task} {avail : Availability}
    {bm bM : Int} {br : Flt} {es : List Entry}
    (h : create_schedule tasks avail bm bM br = Except.ok es) :
    ∃ cap converted base,
      capacity_per_day avail br = Except.ok cap ∧ 0 < cap ∧
      convertTasks bm tasks = Except.ok converted ∧
      parseBase avail = Except.ok base ∧
      es = List.insertionSort (keyedLe outKey)
        (flattenDays base 0 (placeAll cap bM
          (List.insertionSort (keyedLe itemKey) converted))) := by
  rw [create_schedule] at h
  cases h1 : capacity_per_day avail br with
  | error e => simp only [h1] at h; cases h
  | ok cap =>
    simp only [h1] at h
    by_cases h2 : cap ≤ 0
    · rw [if_pos h2] at h; cases h
    · rw [if_neg h2] at h
      cases h3 : convertTasks bm tasks with
      | error e => simp only [h3] at h; cases h
      | ok conv =>
        simp only [h3] at h
        cases h4 : parseBase avail with
        | error e => simp only [h4] at h; cases h
        | ok base =>
          simp only [h4, Except.ok.injEq] at h
          exact ⟨cap, conv, base, rfl, by omega, rfl, rfl, h.symm⟩

/-! ## Spec-side vocabulary -/

/-- Total scheduled minutes of day `d` in an output list (the spec's
"sum of `duration_min` over entries where `day == d`"). -/
def daySum (es : List Entry) (d : Nat) : Int :=
  ((es.filter (fun e => decide (e.day = d))).map Entry.duration_min).sum

/-- Output entries laid out back to back from minute `s`: each starts where
the accumulated load left off and ends `duration_min` later (the spec's
"contiguous and non-overlapping"). -/
def ChainFromE : Int → List Entry → Prop
  | _, [] => True
  | s, e :: r =>
    e.start_min = s ∧ e.end_min = s + e.duration_min ∧ ChainFromE e.end_min r

/-- A duration field a type-correct `TaskInput` may carry: absent, null, or
numeric (int or float); only non-numeric strings fall outside. -/
def numOrNull : Option PyVal → Bool
  | Option.none => true
  | Option.some PyVal.none => true
  | Option.some (PyVal.int _) => true
  | Option.some (PyVal.float _) => true
  | Option.some (PyVal.str _) => false

theorem chainE_of_chain (base : Option Int) (d : Nat) :
    ∀ {l : List BinEntry} {s : Int}, ChainFrom s l →
      ChainFromE s (l.map (entryOfBE base d)) := by
  intro l
  induction l with
  | nil => intro s _; trivial
  | cons x xs ih =>
    intro s hc
    obtain ⟨h1, h2, h3⟩ := hc
    exact ⟨h1, h2, ih h3⟩

theorem sumDur_entryOfBE (base : Option Int) (d : Nat) (l : List BinEntry) :
    ((l.map (entryOfBE base d)).map Entry.duration_min).sum = sumDur l := by
  rw [List.map_map]
  rfl

/-- With all durations nonnegative, a bin's total duration bounds each
member's duration. -/
theorem sumDur_ge_mem :
    ∀ {l : List BinEntry} {t : BinEntry}, t ∈ l →
      (∀ x ∈ l, 0 ≤ x.duration_min) → t.duration_min ≤ sumDur l := by
  intro l
  induction l with
  | nil => intro t ht; cases ht
  | cons x xs ih =>
    intro t ht hpos
    rcases List.mem_cons.mp ht with rfl | hmem
    · have : 0 ≤ sumDur xs := by
        clear ih ht
        induction xs with
        | nil => simp
        | cons y ys ihy =>
          have hy := hpos y (List.mem_cons_of_mem _ (List.mem_cons_self _ _))
          have := ihy (fun z hz => hpos z (by
            rcases List.mem_cons.mp hz with rfl | hz
            · exact List.mem_cons_self _ _
            · exact List.mem_cons_of_mem _ (List.mem_cons_of_mem _ hz)))
          simp only [sumDur_cons]
          omega
      simp only [sumDur_cons]
      omega
    · have := ih hmem (fun z hz => hpos z (List.mem_cons_of_mem _ hz))
      have hx := hpos x (List.mem_cons_self _ _)
      simp only [sumDur_cons]
      omega

/-- Indexed membership in the flattened output: every entry comes from the
bin whose index is the entry's day. -/
theorem flattenDays_mem_idx (base : Option Int) :
    ∀ (i : Nat) (bs : List Bin) (e : Entry), e ∈ flattenDays base i bs →
      ∃ j b, bs.get? j = Option.some b ∧ e.day = i + j ∧
        ∃ t ∈ b.tasks, e = entryOfBE base e.day t := by
  intro i bs
  induction bs generalizing i with
  | nil => intro e he; cases he
  | cons b bt ih =>
    intro e he
    rcases List.mem_append.mp he with hm | hm
    · rcases List.mem_map.mp hm with ⟨x, hx, rfl⟩
      exact ⟨0, b, rfl, by simp, x, hx, rfl⟩
    · rcases ih (i + 1) e hm with ⟨j, b0, hb0, hday, x, hx, hex⟩
      exact ⟨j + 1, b0, hb0, by omega, x, hx, hex⟩

/-- A successful run, summarized: the final bins satisfy the loop
invariant, the output is a sorted permutation of their flattening, and each
day's entries are exactly the corresponding bin's placements. -/
theorem run_days {tasks : List Task} {avail : Availability} {bm bM : Int}
    {br : Flt} {es : List Entry}
    (h : create_schedule tasks avail bm bM br = Except.ok es) :
    ∃ cap base days,
      capacity_per_day avail br = Except.ok cap ∧ 0 < cap ∧
      BinsInv cap bm days ∧
      es.Perm (flattenDays base 0 days) ∧
      es.Sorted (keyedLe outKey) ∧
      ∀ d, (es.filter (fun e => decide (e.day = d))).Perm
        (match days.get? d with
         | Option.some b => b.tasks.map (entryOfBE base d)
         | Option.none => []) := by
  obtain ⟨cap, conv, base, hcap, hpos, hconv, hbase, hes⟩ := create_schedule_ok h
  refine ⟨cap, base, placeAll cap bM (List.insertionSort (keyedLe itemKey) conv),
    hcap, hpos, ?_, ?_, ?_, ?_⟩
  · exact binsInv_placeAll (fun it hit =>
      convertTasks_ok_minutes hconv it ((List.mem_insertionSort _).mp hit))
  · rw [hes]
    exact List.perm_insertionSort _ _
  · rw [hes]
    exact List.sorted_insertionSort _ _
  · intro d
    have hf := (List.perm_insertionSort (keyedLe outKey)
      (flattenDays base 0 (placeAll cap bM
        (List.insertionSort (keyedLe itemKey) conv)))).filter
      (fun e => decide (e.day = d))
    rw [← hes] at hf
    refine hf.trans (List.Perm.of_eq ?_)
    simpa using flattenDays_filter base
      (placeAll cap bM (List.insertionSort (keyedLe itemKey) conv)) 0 d

/-! ## Concrete fixtures used by witnesses and counterexamples -/

/-- `availability = {"hours_per_day": 4}`. -/
def avail4 : Availability := ⟨Option.some (PyVal.int 4), Option.none⟩

/-- `availability = {"hours_per_day": 1}`. -/
def avail1 : Availability := ⟨Option.some (PyVal.int 1), Option.none⟩

/-- The spec's Scenario B tasks:
`[{id: "a", estimate_minutes: 20}, {id: "b", estimate_minutes: 20}]`. -/
def sbTasks : List Task :=
  [⟨PyVal.str "a".data, Option.some (PyVal.int 20), Option.none⟩,
   ⟨PyVal.str "b".data, Option.some (PyVal.int 20), Option.none⟩]

/-- The output of Scenario B (`hours_per_day = 1`, defaults): both
durations clamp to 25, capacity 45, so the two tasks land on days 0, 1. -/
def sbOut : List Entry :=
  [⟨PyVal.str "a".data, 0, 0, 25, 25, false, Option.none, Option.none⟩,
   ⟨PyVal.str "b".data, 1, 0, 25, 25, false, Option.none, Option.none⟩]

theorem sbRun : create_schedule sbTasks avail1 25 90 ⟨25, 100⟩ =
    Except.ok sbOut := rfl

/-! ## C1 -/

/-- C1 (amended): in a successful run with capacity `cap`, every day's
total scheduled minutes is at most `cap`, unless that day consists of
exactly one entry whose own duration exceeds `cap` (an oversized task kept
unsplit in a bin of its own). -/
theorem C1_day_capacity {tasks : List Task} {avail : Availability}
    {bm bM cap : Int} {br : Flt} {es : List Entry}
    (hcap : capacity_per_day avail br = Except.ok cap)
    (h : create_schedule tasks avail bm bM br = Except.ok es) :
    ∀ d, daySum es d ≤ cap ∨
      ∃ e, es.filter (fun x => decide (x.day = d)) = [e] ∧
        cap < e.duration_min := by
  obtain ⟨cap', base, days, hcap', hpos, hinv, hperm, hsorted, hfil⟩ := run_days h
  rw [hcap] at hcap'
  injection hcap' with hcap'
  subst hcap'
  intro d
  have hf := hfil d
  cases hd : days.get? d with
  | none =>
    simp only [hd] at hf
    left
    rw [daySum, List.perm_nil.mp hf]
    simpa using le_of_lt hpos
  | some b =>
    simp only [hd] at hf
    have hbmem : b ∈ days := List.get?_mem hd
    rcases hinv.capok b hbmem with hle | ⟨e0, he0, hbig⟩
    · left
      rw [daySum, (hf.map Entry.duration_min).sum_eq, sumDur_entryOfBE,
        ← hinv.loads b hbmem]
      exact hle
    · right
      rw [he0] at hf
      refine ⟨entryOfBE base d e0, ?_, by simpa using hbig⟩
      exact List.perm_singleton.mp (by simpa using hf)

/-- C1 as stated is false: a single 200-minute task under capacity 180
(hours 4, buffer 0.25) is placed whole, so day 0 carries 200 > 180
minutes. -/
theorem C1_counterexample :
    capacity_per_day avail4 ⟨25, 100⟩ = Except.ok 180 ∧
    (create_schedule
        [⟨PyVal.str "long".data, Option.some (PyVal.int 200), Option.none⟩]
        avail4 25 90 ⟨25, 100⟩).map (fun es => daySum es 0) =
      Except.ok 200 ∧
    ¬(200 : Int) ≤ 180 :=
  ⟨rfl, rfl, by decide⟩

theorem C1_day_capacity_witness :
    daySum sbOut 0 ≤ 45 ∨
      ∃ e, sbOut.filter (fun x => decide (x.day = 0)) = [e] ∧
        45 < e.duration_min :=
  @C1_day_capacity sbTasks avail1 25 90 45 ⟨25, 100⟩ sbOut rfl sbRun 0

/-! ## C4 -/

/-- The spec's Scenario A tasks: three tasks of `estimate_hours = 2`. -/
def scATasks : List Task :=
  [⟨PyVal.int 1, Option.none, Option.some (PyVal.float ⟨2, 1⟩)⟩,
   ⟨PyVal.int 2, Option.none, Option.some (PyVal.float ⟨2, 1⟩)⟩,
   ⟨PyVal.int 3, Option.none, Option.some (PyVal.float ⟨2, 1⟩)⟩]

/-- Scenario A availability:
`{"hours_per_day": 4, "start_date": "2025-01-01"}`. -/
def scAAvail : Availability :=
  ⟨Option.some (PyVal.int 4), Option.some (PyVal.str "2025-01-01".data)⟩

/-- C4: on Scenario A the capacity is 180, every task normalizes to 120
minutes, and the run returns exactly three entries, tasks 1, 2, 3 on days
0, 1, 2, each day loaded with exactly 120 minutes. -/
theorem C4_scenario_A :
    capacity_per_day scAAvail ⟨25, 100⟩ = Except.ok 180 ∧
    scATasks.map to_minutes = [Except.ok 120, Except.ok 120, Except.ok 120] ∧
    (create_schedule scATasks scAAvail 25 90 ⟨25, 100⟩).map
        (List.map (fun e => (e.task_id, e.day, e.duration_min))) =
      Except.ok
        [(PyVal.int 1, 0, 120), (PyVal.int 2, 1, 120), (PyVal.int 3, 2, 120)] ∧
    (create_schedule scATasks scAAvail 25 90 ⟨25, 100⟩).map
        (fun es => (daySum es 0, daySum es 1, daySum es 2)) =
      Except.ok (120, 120, 120) :=
  ⟨rfl, rfl, rfl, rfl⟩

/-! ## C2 -/

theorem hoursMinutes_ok_of_num {t : Task}
    (h2 : numOrNull t.estimate_hours = true) :
    ∃ m, hoursMinutes t = Except.ok m := by
  rw [hoursMinutes]
  cases hh : t.estimate_hours with
  | none => exact ⟨60, rfl⟩
  | some w =>
    rw [hh] at h2
    cases w with
    | none => exact ⟨60, by simp⟩
    | int n =>
      exact ⟨pyRound ((Flt.ofInt n).mul (Flt.ofInt 60)),
        by simp [pyToFloat, Except.map]⟩
    | float a =>
      exact ⟨pyRound (a.mul (Flt.ofInt 60)), by simp [pyToFloat, Except.map]⟩
    | str s => cases h2

theorem to_minutes_ok_of_num {t : Task}
    (h1 : numOrNull t.estimate_minutes = true)
    (h2 : numOrNull t.estimate_hours = true) :
    ∃ m, to_minutes t = Except.ok m := by
  rw [to_minutes]
  cases hm : t.estimate_minutes with
  | none => exact hoursMinutes_ok_of_num h2
  | some v =>
    rw [hm] at h1
    cases v with
    | none => simpa using hoursMinutes_ok_of_num h2
    | int n => exact ⟨n, by simp [pyToInt]⟩
    | float a => exact ⟨a.trunc, by simp [pyToInt]⟩
    | str s => cases h1

/-- C2 (amended): for tasks whose duration fields are absent, null or
numeric — the data model's `TaskInput` typing — normalization always
returns a usable integer duration and never raises; consequently, with a
numeric `hours_per_day` and an absent-or-valid `start_date`, the whole run
either succeeds or fails with the non-positive-capacity configuration
error, which is then the pipeline's only error condition. -/
theorem C2_normalization_total {tasks : List Task} {avail : Availability}
    {bm bM : Int} {br : Flt}
    (ht : ∀ t ∈ tasks, numOrNull t.estimate_minutes = true ∧
      numOrNull t.estimate_hours = true)
    (hh : ∃ hq, hoursPerDay avail = Except.ok hq)
    (hd : ∃ b, parseBase avail = Except.ok b) :
    (∀ t ∈ tasks, ∃ m, to_minutes t = Except.ok m) ∧
    ((∃ es, create_schedule tasks avail bm bM br = Except.ok es) ∨
      create_schedule tasks avail bm bM br = Except.error SchedErr.configError) := by
  have hall : ∀ t ∈ tasks, ∃ m, to_minutes t = Except.ok m :=
    fun t htm => to_minutes_ok_of_num (ht t htm).1 (ht t htm).2
  refine ⟨hall, ?_⟩
  obtain ⟨hq, hhq⟩ := hh
  obtain ⟨b, hbb⟩ := hd
  obtain ⟨conv, hconv⟩ := @convertTasks_of_all_ok bm tasks hall
  have hcap : capacity_per_day avail br = Except.ok
      (pyRound ((hq.mul (Flt.ofInt 60)).mul ((Flt.ofInt 1).sub br))) := by
    rw [capacity_per_day, hhq]
    rfl
  by_cases hc : pyRound ((hq.mul (Flt.ofInt 60)).mul ((Flt.ofInt 1).sub br)) ≤ 0
  · right
    simp only [create_schedule, hcap]
    rw [if_pos hc]
  · left
    refine ⟨List.insertionSort (keyedLe outKey) (flattenDays b 0 (placeAll
      (pyRound ((hq.mul (Flt.ofInt 60)).mul ((Flt.ofInt 1).sub br))) bM
      (List.insertionSort (keyedLe itemKey) conv))), ?_⟩
    simp only [create_schedule, hcap, hconv, hbb]
    rw [if_neg hc]

/-- C2 as stated is false: a present, non-null but non-numeric
`estimate_minutes` (here the string "abc") makes `int(...)` raise, so
normalization is not total and the conversion failure is a second error
condition besides the configuration error. -/
theorem C2_counterexample :
    to_minutes ⟨PyVal.none, Option.some (PyVal.str "abc".data), Option.none⟩ =
      Except.error () ∧
    create_schedule
        [⟨PyVal.int 1, Option.some (PyVal.str "abc".data), Option.none⟩]
        avail4 25 90 ⟨25, 100⟩ = Except.error SchedErr.convError ∧
    SchedErr.convError ≠ SchedErr.configError :=
  ⟨rfl, rfl, by decide⟩

/-- Tasks exercising all three normalization paths with type-correct
fields: an int `estimate_minutes`, a float `estimate_hours`, and a null
`estimate_minutes` with both fields effectively absent. -/
def c2Tasks : List Task :=
  [⟨PyVal.int 1, Option.some (PyVal.int 30), Option.none⟩,
   ⟨PyVal.int 2, Option.none, Option.some (PyVal.float ⟨2, 1⟩)⟩,
   ⟨PyVal.int 3, Option.some PyVal.none, Option.none⟩]

theorem C2_normalization_total_witness :
    (∃ m, to_minutes ⟨PyVal.int 3, Option.some PyVal.none, Option.none⟩ =
      Except.ok m) ∧
    ((∃ es, create_schedule c2Tasks avail4 25 90 ⟨25, 100⟩ = Except.ok es) ∨
      create_schedule c2Tasks avail4 25 90 ⟨25, 100⟩ =
        Except.error SchedErr.configError) :=
  ⟨(@C2_normalization_total c2Tasks avail4 25 90 ⟨25, 100⟩ (by decide)
      ⟨⟨4, 1⟩, rfl⟩ ⟨Option.none, rfl⟩).1
    ⟨PyVal.int 3, Option.some PyVal.none, Option.none⟩ (by decide),
   (@C2_normalization_total c2Tasks avail4 25 90 ⟨25, 100⟩ (by decide)
      ⟨⟨4, 1⟩, rfl⟩ ⟨Option.none, rfl⟩).2⟩

/-! ## C3 -/

/-- C3: with a coercible `hours_per_day` (value `hq`), the run raises the
configuration error exactly when the derived capacity
`round(hq * 60 * (1 - buffer_ratio))` is non-positive; and when it is, the
error is raised for every task list alike — before any task is normalized
or placed — and no output is produced. -/
theorem C3_config_error_iff {avail : Availability} {bm bM : Int}
    {br hq : Flt} (tasks : List Task)
    (hh : hoursPerDay avail = Except.ok hq) :
    (create_schedule tasks avail bm bM br = Except.error SchedErr.configError ↔
      pyRound ((hq.mul (Flt.ofInt 60)).mul ((Flt.ofInt 1).sub br)) ≤ 0) ∧
    (pyRound ((hq.mul (Flt.ofInt 60)).mul ((Flt.ofInt 1).sub br)) ≤ 0 →
      ∀ ts : List Task, create_schedule ts avail bm bM br =
        Except.error SchedErr.configError) := by
  have hcap : capacity_per_day avail br = Except.ok
      (pyRound ((hq.mul (Flt.ofInt 60)).mul ((Flt.ofInt 1).sub br))) := by
    rw [capacity_per_day, hh]
    rfl
  constructor
  · constructor
    · intro h
      by_contra hc
      simp only [create_schedule, hcap] at h
      rw [if_neg hc] at h
      cases h3 : convertTasks bm tasks with
      | error e => simp [h3] at h
      | ok conv =>
        simp only [h3] at h
        cases h4 : parseBase avail with
        | error e =>
          simp only [h4] at h
          injection h with h
          subst h
          exact parseBase_ne_configError avail h4
        | ok base => simp [h4] at h
    · intro hc
      simp only [create_schedule, hcap]
      rw [if_pos hc]
  · intro hc ts
    simp only [create_schedule, hcap]
    rw [if_pos hc]

theorem C3_config_error_iff_witness :
    create_schedule sbTasks avail4 25 90 ⟨1, 1⟩ =
      Except.error SchedErr.configError :=
  (@C3_config_error_iff avail4 25 90 ⟨1, 1⟩ ⟨4, 1⟩ sbTasks rfl).2
    (by decide) sbTasks

/-! ## C5 -/

/-- C5: for each task the allocator (1) on a successful scan selects an
existing in-range bin that fits and whose `(load, index)` pair is
lexicographically minimal among all fitting bins — the first bin of the
`(load ascending, index ascending)` candidate order that fits — and places
the task there; (2) when no bin fits it opens a new bin at index
`len(bins)` holding just this task; and (3) every placement starts at the
bin's load before placement, ends `minutes` later, and adds `minutes` to
the load. -/
theorem C5_allocator_selection (days : List Bin) (it : Item) (cap bM : Int) :
    (∀ di, findSlot days it.minutes cap = Option.some di →
      di < days.length ∧ loadAt days di + it.minutes ≤ cap ∧
      (∀ j, j < days.length → loadAt days j + it.minutes ≤ cap →
        loadAt days di < loadAt days j ∨
          (loadAt days di = loadAt days j ∧ di ≤ j)) ∧
      placeItem cap bM days it = updateAt days di (appendTask bM it)) ∧
    (findSlot days it.minutes cap = Option.none →
      (∀ j, j < days.length → ¬(loadAt days j + it.minutes ≤ cap)) ∧
      placeItem cap bM days it = days ++ [⟨it.minutes, [mkBE 0 bM it]⟩]) ∧
    (∀ b : Bin, (appendTask bM it b).tasks = b.tasks ++ [mkBE b.load bM it] ∧
      (appendTask bM it b).load = b.load + it.minutes) := by
  refine ⟨?_, ?_, fun b => ⟨rfl, rfl⟩⟩
  · intro di hdi
    obtain ⟨h1, h2, h3⟩ := findSlot_some hdi
    exact ⟨h1, h2, h3, by rw [placeItem, hdi]⟩
  · intro hnone
    refine ⟨findSlot_none hnone, ?_⟩
    rw [placeItem, hnone, updateAt_append_singleton]
    simp [appendTask]

/-- Bins with loads 100 and 50 under capacity 130. -/
def c5Days : List Bin := [⟨100, []⟩, ⟨50, []⟩]

/-- A 60-minute item: it fits only the lighter bin (index 1). -/
def it60 : Item := ⟨PyVal.int 7, 60, ⟨PyVal.int 7, Option.none, Option.none⟩⟩

theorem C5_allocator_selection_witness :
    1 < c5Days.length ∧ loadAt c5Days 1 + it60.minutes ≤ 130 ∧
    (∀ j, j < c5Days.length → loadAt c5Days j + it60.minutes ≤ 130 →
      loadAt c5Days 1 < loadAt c5Days j ∨
        (loadAt c5Days 1 = loadAt c5Days j ∧ 1 ≤ j)) ∧
    placeItem 130 90 c5Days it60 = updateAt c5Days 1 (appendTask 90 it60) :=
  (C5_allocator_selection c5Days it60 130 90).1 1 rfl

/-! ## C6 -/

/-- C6: a task's normalized duration is `estimate_minutes` when that field
holds an integer, else `round(estimate_hours * 60)` when that field is
present and not null (numeric value `a`), else 60; and in every successful
run each returned entry satisfies `duration_min ≥ block_min` (short
durations are clamped up). -/
theorem C6_duration_normalization {tasks : List Task} {avail : Availability}
    {bm bM : Int} {br : Flt} {es : List Entry}
    (h : create_schedule tasks avail bm bM br = Except.ok es) :
    (∀ (t : Task) (n : Int), t.estimate_minutes = Option.some (PyVal.int n) →
      to_minutes t = Except.ok n) ∧
    (∀ (t : Task) (w : PyVal) (a : Flt),
      (t.estimate_minutes = Option.none ∨
        t.estimate_minutes = Option.some PyVal.none) →
      t.estimate_hours = Option.some w → w ≠ PyVal.none →
      pyToFloat w = Except.ok a →
      to_minutes t = Except.ok (pyRound (a.mul (Flt.ofInt 60)))) ∧
    (∀ t : Task,
      (t.estimate_minutes = Option.none ∨
        t.estimate_minutes = Option.some PyVal.none) →
      (t.estimate_hours = Option.none ∨
        t.estimate_hours = Option.some PyVal.none) →
      to_minutes t = Except.ok 60) ∧
    (∀ e ∈ es, bm ≤ e.duration_min) := by
  refine ⟨?_, ?_, ?_, ?_⟩
  · intro t n hn
    rw [to_minutes, hn]
    simp [pyToInt]
  · intro t w a hm hw hwn ha
    have hhm : hoursMinutes t = Except.ok (pyRound (a.mul (Flt.ofInt 60))) := by
      rw [hoursMinutes]
      simp only [hw]
      rw [if_pos hwn, ha]
      rfl
    rcases hm with hm | hm <;> rw [to_minutes, hm] <;> simpa using hhm
  · intro t hm hw
    have hhm : hoursMinutes t = Except.ok 60 := by
      rcases hw with hw | hw
      · rw [hoursMinutes]
        simp only [hw]
      · rw [hoursMinutes]
        simp only [hw]
        simp
    rcases hm with hm | hm <;> rw [to_minutes, hm] <;> simpa using hhm
  · intro e he
    obtain ⟨cap, base, days, hcap, hpos, hinv, hperm, hsorted, hfil⟩ := run_days h
    have hef : e ∈ flattenDays base 0 days := hperm.subset he
    obtain ⟨j, b, hb, hday, t, ht, het⟩ := flattenDays_mem_idx base 0 days e hef
    have := hinv.durs b (List.get?_mem hb) t ht
    rw [het]
    simpa using this

theorem C6_duration_normalization_witness :
    to_minutes ⟨PyVal.int 5, Option.some (PyVal.int 30), Option.none⟩ =
      Except.ok 30 ∧
    to_minutes ⟨PyVal.int 6, Option.none, Option.some (PyVal.float ⟨2, 1⟩)⟩ =
      Except.ok 120 ∧
    to_minutes ⟨PyVal.int 7, Option.some PyVal.none, Option.none⟩ =
      Except.ok 60 ∧
    (25 : Int) ≤ (⟨PyVal.str "a".data, 0, 0, 25, 25, false,
      Option.none, Option.none⟩ : Entry).duration_min :=
  ⟨(C6_duration_normalization sbRun).1
      ⟨PyVal.int 5, Option.some (PyVal.int 30), Option.none⟩ 30 rfl,
   (C6_duration_normalization sbRun).2.1
      ⟨PyVal.int 6, Option.none, Option.some (PyVal.float ⟨2, 1⟩)⟩
      (PyVal.float ⟨2, 1⟩) ⟨2, 1⟩ (Or.inl rfl) rfl (by decide) rfl,
   (C6_duration_normalization sbRun).2.2.1
      ⟨PyVal.int 7, Option.some PyVal.none, Option.none⟩ (Or.inr rfl)
      (Or.inl rfl),
   (C6_duration_normalization sbRun).2.2.2 _ (by decide)⟩

/-! ## C7 -/

theorem itemKey_nodup {items : List Item}
    (h : (items.map (fun it => pyStr it.id)).Nodup) :
    (items.map itemKey).Nodup := by
  apply List.pairwise_map.mpr
  have h' := List.pairwise_map.mp h
  refine h'.imp (fun {a b} hne hkey => ?_)
  apply hne
  have hcomp := congrArg (fun k : Int ×ₗ List Char => (ofLex k).2) hkey
  simpa [itemKey] using hcomp

/-- Helper to expose which branch an `Except` value is in without
generalizing the goal. -/
theorem exceptCases {ε α : Type} (x : Except ε α) :
    (∃ e, x = Except.error e) ∨ (∃ a, x = Except.ok a) := by
  cases x
  · exact Or.inl ⟨_, rfl⟩
  · exact Or.inr ⟨_, rfl⟩

/-- C7: the scheduler is deterministic — rerunning it on the same input is
the same computation (the embedding is a pure function, so this conjunct is
definitional) — and, when the tasks' id strings are pairwise distinct,
permuting the input task sequence leaves the output (including the error
outcome, if any) unchanged. -/
theorem C7_determinism {l₁ l₂ : List Task} {avail : Availability}
    {bm bM : Int} {br : Flt} (hp : l₁.Perm l₂)
    (hd : (l₁.map (fun t => pyStr t.id)).Nodup) :
    create_schedule l₁ avail bm bM br = create_schedule l₁ avail bm bM br ∧
    create_schedule l₁ avail bm bM br = create_schedule l₂ avail bm bM br := by
  refine ⟨rfl, ?_⟩
  simp only [create_schedule]
  rcases exceptCases (capacity_per_day avail br) with ⟨e, hcv⟩ | ⟨cap, hcv⟩
  · simp only [hcv]
  · simp only [hcv]
    by_cases h2 : cap ≤ 0
    · rw [if_pos h2, if_pos h2]
    · rw [if_neg h2, if_neg h2]
      rcases @convertTasks_perm bm l₁ l₂ hp with ⟨e1, e2⟩ | ⟨i1, i2, k1, k2, hip⟩
      · simp only [e1, e2]
      · simp only [k1, k2]
        have hi1 : i1.map Item.id = l₁.map Task.id := convertTasks_ids k1
        have hstr : (i1.map (fun it => pyStr it.id)).Nodup := by
          have heq : i1.map (fun it => pyStr it.id) =
              l₁.map (fun t => pyStr t.id) := by
            have := congrArg (List.map pyStr) hi1
            simpa [List.map_map, Function.comp_def] using this
          rw [heq]
          exact hd
        rw [insertionSort_eq_of_perm itemKey hip (itemKey_nodup hstr)]

def c7a : Task := ⟨PyVal.int 1, Option.some (PyVal.int 30), Option.none⟩

def c7b : Task := ⟨PyVal.int 2, Option.some (PyVal.int 40), Option.none⟩

theorem C7_determinism_witness :
    create_schedule [c7a, c7b] avail4 25 90 ⟨25, 100⟩ =
      create_schedule [c7a, c7b] avail4 25 90 ⟨25, 100⟩ ∧
    create_schedule [c7a, c7b] avail4 25 90 ⟨25, 100⟩ =
      create_schedule [c7b, c7a] avail4 25 90 ⟨25, 100⟩ :=
  C7_determinism (by decide) (by decide)

/-! ## C8 -/

/-- C8: the returned list is sorted by `(day, start_min, str(task_id))`
ascending, and within each day the entries can be arranged (here: the bin's
own placement order) so that the first starts at minute 0, each entry
starts where the accumulated load left off, and each ends `duration_min`
after it starts. -/
theorem C8_output_order {tasks : List Task} {avail : Availability}
    {bm bM : Int} {br : Flt} {es : List Entry}
    (h : create_schedule tasks avail bm bM br = Except.ok es) :
    es.Sorted (keyedLe outKey) ∧
    ∀ d, ∃ l, (es.filter (fun e => decide (e.day = d))).Perm l ∧
      ChainFromE 0 l := by
  obtain ⟨cap, base, days, hcap, hpos, hinv, hperm, hsorted, hfil⟩ := run_days h
  refine ⟨hsorted, fun d => ?_⟩
  cases hd : days.get? d with
  | none =>
    refine ⟨[], ?_, trivial⟩
    have hf := hfil d
    simp only [hd] at hf
    exact hf
  | some b =>
    refine ⟨b.tasks.map (entryOfBE base d), ?_,
      chainE_of_chain base d (hinv.chains b (List.get?_mem hd))⟩
    have hf := hfil d
    simp only [hd] at hf
    exact hf

theorem C8_output_order_witness :
    sbOut.Sorted (keyedLe outKey) ∧
    ∃ l, (sbOut.filter (fun e => decide (e.day = 0))).Perm l ∧
      ChainFromE 0 l :=
  ⟨(C8_output_order sbRun).1, (C8_output_order sbRun).2 0⟩

/-! ## C9 -/

/-- C9 (amended): every input task produces exactly one output entry — the
output length equals the input length and the multiset of output `task_id`s
equals the multiset of input ids — and, when the input ids are pairwise
distinct under Python `==`, no `task_id` appears in more than one output
entry. -/
theorem C9_one_entry_per_task {tasks : List Task} {avail : Availability}
    {bm bM : Int} {br : Flt} {es : List Entry}
    (h : create_schedule tasks avail bm bM br = Except.ok es) :
    es.length = tasks.length ∧
    (es.map Entry.task_id).Perm (tasks.map Task.id) ∧
    (tasks.Pairwise (fun a b => pyEq a.id b.id = false) →
      es.Pairwise (fun a b => pyEq a.task_id b.task_id = false)) := by
  obtain ⟨cap, conv, base, hcap, hpos, hconv, hbase, hes⟩ := create_schedule_ok h
  have hids : (es.map Entry.task_id).Perm (tasks.map Task.id) := by
    have h1 : (es.map Entry.task_id).Perm
        ((flattenDays base 0 (placeAll cap bM
          (List.insertionSort (keyedLe itemKey) conv))).map Entry.task_id) := by
      rw [hes]
      exact (List.perm_insertionSort _ _).map _
    rw [flattenDays_map_task_id] at h1
    have h2 := @placeAll_ids cap bM (List.insertionSort (keyedLe itemKey) conv)
    have h3 : ((List.insertionSort (keyedLe itemKey) conv).map Item.id).Perm
        (conv.map Item.id) := (List.perm_insertionSort _ _).map _
    exact h1.trans (h2.trans (h3.trans (List.Perm.of_eq (convertTasks_ids hconv))))
  refine ⟨by simpa using hids.length_eq, hids, ?_⟩
  intro hpw
  have hsym : ∀ {x y : PyVal}, pyEq x y = false → pyEq y x = false := by
    intro x y hxy
    rw [pyEq_symm]
    exact hxy
  have h5 : (tasks.map Task.id).Pairwise (fun a b => pyEq a b = false) :=
    List.pairwise_map.mpr hpw
  have h6 : (es.map Entry.task_id).Pairwise (fun a b => pyEq a b = false) :=
    (List.Perm.pairwise_iff hsym hids).mpr h5
  exact List.pairwise_map.mp h6

/-- C9's second half fails as stated: two tasks may share the id 1, and
then `task_id = 1` appears in two output entries. -/
theorem C9_counterexample :
    (create_schedule
        [⟨PyVal.int 1, Option.none, Option.none⟩,
         ⟨PyVal.int 1, Option.none, Option.none⟩]
        avail4 25 90 ⟨25, 100⟩).map (List.map Entry.task_id) =
      Except.ok [PyVal.int 1, PyVal.int 1] ∧
    pyEq (PyVal.int 1) (PyVal.int 1) = true :=
  ⟨rfl, rfl⟩

theorem C9_one_entry_per_task_witness :
    sbOut.length = sbTasks.length ∧
    (sbOut.map Entry.task_id).Perm (sbTasks.map Task.id) ∧
    sbOut.Pairwise (fun a b => pyEq a.task_id b.task_id = false) :=
  ⟨(C9_one_entry_per_task sbRun).1, (C9_one_entry_per_task sbRun).2.1,
   (C9_one_entry_per_task sbRun).2.2 (by decide)⟩

/-! ## C10 -/

/-- C10 (amended): provided `block_min ≥ 0` (true of the default 25 and
every sensible configuration), a task whose normalized duration exceeds the
capacity sits alone on its day: no other placement ever joins its bin, and
(by C1's amended invariant) such days are the only ones whose load can
exceed the capacity. -/
theorem C10_oversized_isolated {tasks : List Task} {avail : Availability}
    {bm bM cap : Int} {br : Flt} {es : List Entry}
    (hbm : 0 ≤ bm)
    (hcap : capacity_per_day avail br = Except.ok cap)
    (h : create_schedule tasks avail bm bM br = Except.ok es) :
    ∀ e ∈ es, cap < e.duration_min →
      es.filter (fun x => decide (x.day = e.day)) = [e] := by
  obtain ⟨cap', base, days, hcap', hpos, hinv, hperm, hsorted, hfil⟩ := run_days h
  rw [hcap] at hcap'
  injection hcap' with hcap'
  subst hcap'
  intro e he hbig
  have hef : e ∈ flattenDays base 0 days := hperm.subset he
  obtain ⟨j, b, hb, hday, t, ht, het⟩ := flattenDays_mem_idx base 0 days e hef
  have hbmem : b ∈ days := List.get?_mem hb
  have hpos0 : ∀ x ∈ b.tasks, 0 ≤ x.duration_min := fun x hx =>
    le_trans hbm (hinv.durs b hbmem x hx)
  have htdur : t.duration_min = e.duration_min := by
    rw [het]
    simp
  have hload : cap < b.load := by
    rw [hinv.loads b hbmem]
    have := sumDur_ge_mem ht hpos0
    omega
  rcases hinv.capok b hbmem with hle | ⟨e0, he0, _⟩
  · omega
  · have hte0 : t = e0 := by
      rw [he0] at ht
      exact List.mem_singleton.mp ht
    have hgd : days.get? e.day = Option.some b := by
      rw [hday]
      simpa using hb
    have hf := hfil e.day
    simp only [hgd, he0] at hf
    have hee : entryOfBE base e.day e0 = e := by
      rw [hte0] at het
      exact het.symm
    rw [List.map_singleton, hee] at hf
    exact List.perm_singleton.mp hf

/-- C10 as stated is false without the `block_min ≥ 0` proviso: with
`block_min = -30` a later task of duration -30 still fits (170 ≤ 180) into
the bin freshly opened for the oversized 200-minute task, so that bin does
receive another placement. -/
theorem C10_counterexample :
    capacity_per_day avail4 ⟨25, 100⟩ = Except.ok 180 ∧
    (create_schedule
        [⟨PyVal.str "a".data, Option.some (PyVal.int 200), Option.none⟩,
         ⟨PyVal.str "b".data, Option.some (PyVal.int (-30)), Option.none⟩]
        avail4 (-30) 90 ⟨25, 100⟩).map
        (List.map (fun e => (e.task_id, e.day, e.duration_min))) =
      Except.ok
        [(PyVal.str "a".data, 0, 200), (PyVal.str "b".data, 0, (-30 : Int))] ∧
    (180 : Int) < 200 :=
  ⟨rfl, rfl, by decide⟩

/-- The spec's Scenario C tasks. -/
def scCTasks : List Task :=
  [⟨PyVal.str "long".data, Option.some (PyVal.int 200), Option.none⟩,
   ⟨PyVal.str "small".data, Option.some (PyVal.int 30), Option.none⟩]

/-- Scenario C output: the oversized 200-minute task alone on day 0,
flagged `split_recommended`; the 30-minute task on day 1. -/
def scCOut : List Entry :=
  [⟨PyVal.str "long".data, 0, 0, 200, 200, true, Option.none, Option.none⟩,
   ⟨PyVal.str "small".data, 1, 0, 30, 30, false, Option.none, Option.none⟩]

theorem scCRun : create_schedule scCTasks avail4 25 90 ⟨25, 100⟩ =
    Except.ok scCOut := rfl

theorem C10_oversized_isolated_witness :
    scCOut.filter (fun x => decide (x.day =
      (⟨PyVal.str "long".data, 0, 0, 200, 200, true,
        Option.none, Option.none⟩ : Entry).day)) =
      [⟨PyVal.str "long".data, 0, 0, 200, 200, true,
        Option.none, Option.none⟩] :=
  @C10_oversized_isolated scCTasks avail4 25 90 180 ⟨25, 100⟩ scCOut
    (by decide) rfl scCRun
    ⟨PyVal.str "long".data, 0, 0, 200, 200, true, Option.none, Option.none⟩
    (by decide) (by decide)

end Scheduler
